import Mathlib

/-!
Verification of the document-processing core of the Banking-MultiAgent-AI-System
repository (`src/rag/document_processor.py`).

The repository file `document_processor.py` configures a recursive character
text splitter with the separator hierarchy `["\n\n", "\n", ". ", " ", ""]`,
loads documents, chunks them, enriches chunk metadata, and processes whole
directories while aggregating statistics.  The segmentation algorithm itself
and the overlap window manager are implemented by the external splitter
library and are not part of the repository sources; they are modelled here
from the specification (sections 4.1-4.3 and 7), as marked on each such
definition.  Everything else is translated directly from the Python source.

Text is modelled as `List Char`; Python dictionaries (chunk metadata and the
`document_types` histogram) are modelled as insertion-ordered association
lists with in-place update, matching `dict.update` / `dict.__setitem__`
semantics.
-/

/-- `hasPre s t` is true when the list `s` occurs at the head of `t`
(helper for separator matching and extension tests). -/
def hasPre : List Char → List Char → Bool
  | [], _ => true
  | _ :: _, [] => false
  | a :: as, b :: bs => a == b && hasPre as bs

/-- `endsWithL t s` is true when `t` ends with `s` (glob pattern
matching for a pattern of the shape star-then-extension is exactly an
end-of-name test, case sensitive as on a POSIX filesystem). -/
def endsWithL (t s : List Char) : Bool := hasPre s.reverse t.reverse

/-- `containsSub needle hay` is Python's substring test `needle in hay`. -/
def containsSub (needle : List Char) : List Char → Bool
  | [] => needle.isEmpty
  | c :: rest => hasPre needle (c :: rest) || containsSub needle rest

/-- Python `str.lower()` restricted to the character-wise case fold. -/
def lowerChars (s : List Char) : List Char := s.map Char.toLower

/-- Python `pathlib.Path.name`: the final path component. -/
def baseName (p : List Char) : List Char :=
  (p.reverse.takeWhile (fun c => c != '/')).reverse

/-- Python `pathlib.Path.suffix`: the extension of the final component,
including the dot; empty when the last dot is absent, leading, or trailing. -/
def extOf (name : List Char) : List Char :=
  if 0 < (name.reverse.takeWhile (fun c => c != '.')).length ∧
      (name.reverse.takeWhile (fun c => c != '.')).length + 1 < name.length then
    name.drop (name.length - ((name.reverse.takeWhile (fun c => c != '.')).length + 1))
  else []

/-- `file_path.suffix.lower()` from `load_document`. -/
def extLower (p : String) : String :=
  String.mk (lowerChars (extOf (baseName p.toList)))

/-- Values stored in chunk metadata (Python dict values: strings and ints). -/
inductive MVal : Type
  | str : String → MVal
  | nat : Nat → MVal
deriving DecidableEq, Repr

/-- Python `dict.get`: first (unique) binding of a key in an
insertion-ordered association list. -/
def getK {α : Type} (k : String) : List (String × α) → Option α
  | [] => none
  | (k', v) :: rest => if k' = k then some v else getK k rest

/-- Python `dict.__setitem__`: replace the binding in place when the key is
present, otherwise append it. -/
def setK {α : Type} (k : String) (v : α) : List (String × α) → List (String × α)
  | [] => [(k, v)]
  | (k', v') :: rest => if k' = k then (k, v) :: rest else (k', v') :: setK k v rest

/-- Python `dict.update` with a literal: apply the bindings left to right. -/
def updateKVs {α : Type} (m : List (String × α)) : List (String × α) → List (String × α)
  | [] => m
  | (k, v) :: rest => updateKVs (setK k v m) rest

/-- A LangChain `Document`: `page_content` plus a metadata dict. -/
structure Document : Type where
  page_content : List Char
  metadata : List (String × MVal)
deriving DecidableEq, Repr

/-- `ProcessingStats` from `document_processor.py` (defaults
`total_documents=0`, `total_chunks=0`, `avg_chunk_size=0.0`,
`document_types={}`). -/
structure ProcessingStats : Type where
  total_documents : Nat
  total_chunks : Nat
  avg_chunk_size : ℚ
  document_types : List (String × Nat)
deriving DecidableEq, Repr

/-- A file visible to the batch orchestrator: its path and what the external
loader yields for it — `none` models a loader exception (caught inside
`load_document`, which then returns the empty list), `some pages` a
successful load with one entry per page. -/
structure FileEnt : Type where
  path : String
  loadResult : Option (List Document)
deriving DecidableEq, Repr

/-- Modelled from the spec (section 4.1): the separator hierarchy configured
in `DocumentProcessor.__init__`, coarsest first: paragraph, line, sentence,
word, character. -/
def bankingSeparators : List (List Char) :=
  [['\n', '\n'], ['\n'], ['.', ' '], [' '], []]

/-- Modelled from the spec (section 4.2 step 1): split `text` at each
occurrence of the separator, re-attaching the separator to the end of every
segment except the last, so that concatenating the segments restores `text`.
`acc` holds the current segment reversed, `skip` counts separator characters
still to be consumed after a match. -/
def skAux (s : List Char) : List Char → Nat → List Char → List (List Char)
  | [], _, acc => [acc.reverse]
  | _ :: cs, k + 1, acc => skAux s cs k acc
  | c :: cs, 0, acc =>
    if hasPre s (c :: cs) then (acc.reverse ++ s) :: skAux s cs (s.length - 1) []
    else skAux s cs 0 (c :: acc)

/-- Modelled from the spec (section 4.2 step 1): `splitKeep s text` is the
segment list of `text` under separator `s` with separators re-attached. -/
def splitKeep (s text : List Char) : List (List Char) :=
  if s.isEmpty then [text] else skAux s text 0 []

/-- Modelled from the spec (section 4.2 step 2): greedy packing of segments
into chunks of size at most `bound`.  `buf` is the growing buffer.  When the
next segment still fits it is appended; when it does not and the buffer is
nonempty the buffer is closed and a new buffer starts with the pending
segment; a segment that alone exceeds the bound with an empty buffer is, at
this stage, emitted whole (recursive subdivision happens before packing, in
`segmentText`, so such a segment is one that no finer separator can break). -/
def packSegs (bound : Nat) : List (List Char) → List Char → List (List Char)
  | [], buf => if buf.isEmpty then [] else [buf]
  | seg :: rest, buf =>
    if buf.length + seg.length ≤ bound then packSegs bound rest (buf ++ seg)
    else if buf.isEmpty then seg :: packSegs bound rest []
    else if seg.length ≤ bound then buf :: packSegs bound rest seg
    else buf :: seg :: packSegs bound rest []

/-- Modelled from the spec (section 4.2): the recursive segmenter.  Take the
first separator; at the terminal (empty-string or exhausted) level the
segments are the individual characters; otherwise split by the separator,
recursively subdivide every segment that alone exceeds the bound using the
finer separators, and greedily pack the resulting segment stream. -/
def segmentText (bound : Nat) : List (List Char) → List Char → List (List Char)
  | [], text => packSegs bound (text.map (fun c => [c])) []
  | s :: rest, text =>
    if s.isEmpty then packSegs bound (text.map (fun c => [c])) []
    else
      packSegs bound
        ((splitKeep s text).flatMap
          (fun seg => if seg.length ≤ bound then [seg] else segmentText bound rest seg))
        []

/-- Modelled from the spec (section 4.3): prefix `cur` with up to `ov`
characters taken from the tail of the previous chunk's original content,
truncated from the front so the result does not exceed `bound`. -/
def tailOv (ov bound : Nat) (prev cur : List Char) : List Char :=
  ((prev.drop (prev.length - ov)).drop
      ((prev.drop (prev.length - ov)).length - (bound - cur.length))) ++ cur

/-- Modelled from the spec (section 4.3): walk the chunk sequence keeping the
previous chunk's original (pre-overlap) content as `prev`. -/
def applyOverlapAux (ov bound : Nat) (prev : List Char) : List (List Char) → List (List Char)
  | [] => []
  | c :: rest => tailOv ov bound prev c :: applyOverlapAux ov bound c rest

/-- Modelled from the spec (section 4.3): the overlap window manager.  The
first chunk receives no leading overlap; each later chunk is prefixed from
its predecessor's original content.  Overlap is not compounded. -/
def applyOverlap (bound ov : Nat) : List (List Char) → List (List Char)
  | [] => []
  | c :: rest => c :: applyOverlapAux ov bound c rest

/-- One page through the configured splitter: recursive segmentation with the
banking separator hierarchy followed by the overlap window manager. -/
def splitPage (chunk_size chunk_overlap : Nat) (text : List Char) : List (List Char) :=
  applyOverlap chunk_size chunk_overlap (segmentText chunk_size bankingSeparators text)

/-- `DocumentProcessor.chunk_documents`: split every loaded page into chunks,
each chunk inheriting its page's metadata. -/
def chunk_documents (chunk_size chunk_overlap : Nat) (documents : List Document) : List Document :=
  documents.flatMap (fun d =>
    (splitPage chunk_size chunk_overlap d.page_content).map
      (fun c => { page_content := c, metadata := d.metadata }))

/-- The `DocumentProcessor` configuration state: `self.chunk_size` and
`self.chunk_overlap` as stored by `__init__`. -/
structure DocumentProcessor : Type where
  chunk_size : Int
  chunk_overlap : Int
deriving DecidableEq, Repr

/-- Modelled from the spec (section 7, ConfigurationError): construction of
the processor.  `__init__` in the source stores the two values and delegates
to the external splitter constructor, which is not under the repository
sources; per the spec, a `chunk_size ≤ 0` or a `chunk_overlap ≥ chunk_size`
is rejected at construction time and is never clamped. -/
def mkDocumentProcessor (chunk_size chunk_overlap : Int) : Except String DocumentProcessor :=
  if chunk_size ≤ 0 then
    Except.error "chunk_size must be positive"
  else if chunk_size ≤ chunk_overlap then
    Except.error "chunk_overlap must be smaller than chunk_size"
  else
    Except.ok { chunk_size := chunk_size, chunk_overlap := chunk_overlap }

/-- The supported extensions from `process_directory`
(`['.docx', '.pdf', '.txt']`). -/
def supported_extensions : List String := [".docx", ".pdf", ".txt"]

/-- `DocumentProcessor.load_document`: pick a loader by the lower-cased
suffix; an unsupported suffix is logged as a warning and yields `[]`; a
loader exception is caught, logged as an error, and also yields `[]`. -/
def load_document (f : FileEnt) : List Document :=
  if extLower f.path = ".docx" ∨ extLower f.path = ".pdf" ∨ extLower f.path = ".txt" then
    match f.loadResult with
    | none => []
    | some documents => documents
  else []

/-- `DocumentProcessor._infer_document_type` keyword test: Python's
`keyword in filename.lower()`. -/
def hasKw (filename : String) (kw : String) : Bool :=
  containsSub kw.toList (lowerChars filename.toList)

/-- `DocumentProcessor._infer_document_type`: first-match-wins keyword
classification of a filename into a document category. -/
def infer_document_type (filename : String) : String :=
  if hasKw filename "account" || hasKw filename "product" then "account_info"
  else if hasKw filename "fee" || hasKw filename "charge" then "fees"
  else if hasKw filename "loan" || hasKw filename "mortgage" then "loans"
  else if hasKw filename "security" || hasKw filename "fraud" then "security"
  else if hasKw filename "service" || hasKw filename "support" then "customer_service"
  else "general"

/-- The metadata bindings written by `enrich_metadata` for the chunk at
position `i` out of `n`, in the order of the Python dict literal. -/
def chunkKVs (source_file : String) (doc_type : String) (n i : Nat) (c : Document) :
    List (String × MVal) :=
  [("source", MVal.str source_file),
   ("filename", MVal.str (String.mk (baseName source_file.toList))),
   ("doc_type", MVal.str doc_type),
   ("chunk_index", MVal.nat i),
   ("total_chunks", MVal.nat n),
   ("chunk_size", MVal.nat c.page_content.length)]

/-- The `for i, chunk in enumerate(chunks)` loop of `enrich_metadata`,
carrying the running index. -/
def enrichAux (source_file doc_type : String) (n : Nat) : Nat → List Document → List Document
  | _, [] => []
  | i, c :: cs =>
    { c with metadata := updateKVs c.metadata (chunkKVs source_file doc_type n i c) }
      :: enrichAux source_file doc_type n (i + 1) cs

/-- `DocumentProcessor.enrich_metadata`: update every chunk's metadata dict
with source, filename, inferred category, ordinal index, chunk count and
content length. -/
def enrich_metadata (chunks : List Document) (source_file : String) : List Document :=
  enrichAux source_file (infer_document_type (String.mk (baseName source_file.toList)))
    chunks.length 0 chunks

/-- The directory scan of `process_directory`: for each supported extension
in order, the files matching the glob pattern star-then-extension.  Glob
matching is literal and case sensitive (POSIX), so the patterns match
exactly the lower-case extensions. -/
def scanFiles (files : List FileEnt) : List FileEnt :=
  supported_extensions.flatMap (fun ext =>
    files.filter (fun f => endsWithL f.path.toList ext.toList))

/-- The mutable state of the `process_directory` loop: `all_chunks` and
`stats` (before the final average computation). -/
structure BatchState : Type where
  all_chunks : List Document
  stats : ProcessingStats
deriving DecidableEq, Repr

/-- The body of the per-file loop of `process_directory`, with Python's
mutation order made explicit.  A file whose load yields no documents is
skipped (`continue`).  Otherwise the chunks are appended and
`total_documents` and `total_chunks` are updated; the subsequent
`chunks[0].metadata['doc_type']` access raises when the chunk list is empty
(or the key is missing), and the `except` clause then leaves the statistics
partially updated — `document_types` untouched. -/
def processFile (chunk_size chunk_overlap : Nat) (st : BatchState) (f : FileEnt) : BatchState :=
  let documents := load_document f
  if documents.isEmpty then st
  else
    let chunks := enrich_metadata (chunk_documents chunk_size chunk_overlap documents) f.path
    let all_chunks := st.all_chunks ++ chunks
    let td := st.stats.total_documents + 1
    let tc := st.stats.total_chunks + chunks.length
    match chunks with
    | [] =>
      { all_chunks := all_chunks,
        stats := { st.stats with total_documents := td, total_chunks := tc } }
    | c0 :: _ =>
      match getK "doc_type" c0.metadata with
      | some (MVal.str dt) =>
        { all_chunks := all_chunks,
          stats := { st.stats with
            total_documents := td,
            total_chunks := tc,
            document_types :=
              setK dt ((getK dt st.stats.document_types).getD 0 + 1)
                st.stats.document_types } }
      | _ =>
        { all_chunks := all_chunks,
          stats := { st.stats with total_documents := td, total_chunks := tc } }

/-- The whole per-file loop of `process_directory`. -/
def processFiles (chunk_size chunk_overlap : Nat) (st : BatchState) (files : List FileEnt) :
    BatchState :=
  files.foldl (processFile chunk_size chunk_overlap) st

/-- The final average computation of `process_directory`:
`avg_chunk_size` is the mean chunk length, left at its default when no
chunks were produced. -/
def finalizeStats (all_chunks : List Document) (stats : ProcessingStats) : ProcessingStats :=
  if all_chunks.isEmpty then stats
  else
    { stats with
      avg_chunk_size :=
        ((all_chunks.map (fun c => c.page_content.length)).sum : ℚ) / (all_chunks.length : ℚ) }

/-- `DocumentProcessor.process_directory`: a missing directory (`none`)
raises `FileNotFoundError` before any work; otherwise the supported files
are scanned, each is processed with per-file error isolation, and the chunk
list is returned together with the finalized statistics. -/
def process_directory (chunk_size chunk_overlap : Nat) (dir : Option (List FileEnt)) :
    Except String (List Document × ProcessingStats) :=
  match dir with
  | none => Except.error "Directory not found"
  | some files =>
    let st := processFiles chunk_size chunk_overlap
      { all_chunks := [],
        stats := { total_documents := 0, total_chunks := 0, avg_chunk_size := 0,
                   document_types := [] } }
      (scanFiles files)
    Except.ok (st.all_chunks, finalizeStats st.all_chunks st.stats)

/-- Greedy packing never emits a chunk above the bound as long as the buffer
and every incoming segment respect the bound. -/
theorem packSegs_bound (bound : Nat) :
    ∀ (segs : List (List Char)) (buf : List Char), buf.length ≤ bound →
      (∀ s ∈ segs, s.length ≤ bound) →
      ∀ c ∈ packSegs bound segs buf, c.length ≤ bound := by
  intro segs
  induction segs with
  | nil =>
    intro buf hb _ c hc
    simp only [packSegs] at hc
    by_cases h : buf.isEmpty
    · simp [h] at hc
    · simp [h] at hc
      subst hc
      exact hb
  | cons seg rest ih =>
    intro buf hb hs c hc
    simp only [packSegs] at hc
    by_cases h1 : buf.length + seg.length ≤ bound
    · rw [if_pos h1] at hc
      exact ih (buf ++ seg) (by simpa using h1)
        (fun s hsm => hs s (List.mem_cons_of_mem _ hsm)) c hc
    · rw [if_neg h1] at hc
      by_cases h2 : buf.isEmpty
      · rw [if_pos h2] at hc
        rcases List.mem_cons.mp hc with rfl | hc'
        · exact hs c (List.mem_cons_self _ _)
        · exact ih [] (by simp) (fun s hsm => hs s (List.mem_cons_of_mem _ hsm)) c hc'
      · rw [if_neg h2] at hc
        by_cases h3 : seg.length ≤ bound
        · rw [if_pos h3] at hc
          rcases List.mem_cons.mp hc with rfl | hc'
          · exact hb
          · exact ih seg h3 (fun s hsm => hs s (List.mem_cons_of_mem _ hsm)) c hc'
        · rw [if_neg h3] at hc
          rcases List.mem_cons.mp hc with rfl | hc'
          · exact hb
          · rcases List.mem_cons.mp hc' with rfl | hc''
            · exact hs c (List.mem_cons_self _ _)
            · exact ih [] (by simp) (fun s hsm => hs s (List.mem_cons_of_mem _ hsm)) c hc''

/-- The recursive segmenter respects the bound for any separator hierarchy
whenever the bound is at least one (a single character always fits). -/
theorem segmentText_bound (bound : Nat) (hb : 1 ≤ bound) :
    ∀ (seps : List (List Char)) (text : List Char),
      ∀ c ∈ segmentText bound seps text, c.length ≤ bound := by
  intro seps
  induction seps with
  | nil =>
    intro text c hc
    refine packSegs_bound bound _ [] (by simp) ?_ c hc
    intro s hsm
    rcases List.mem_map.mp hsm with ⟨a, _, rfl⟩
    simpa using hb
  | cons s rest ih =>
    intro text c hc
    simp only [segmentText] at hc
    by_cases he : s.isEmpty
    · rw [if_pos he] at hc
      refine packSegs_bound bound _ [] (by simp) ?_ c hc
      intro x hxm
      rcases List.mem_map.mp hxm with ⟨a, _, rfl⟩
      simpa using hb
    · rw [if_neg he] at hc
      refine packSegs_bound bound _ [] (by simp) ?_ c hc
      intro x hxm
      rcases List.mem_flatMap.mp hxm with ⟨seg, _, hx⟩
      by_cases hl : seg.length ≤ bound
      · rw [if_pos hl] at hx
        simp at hx
        subst hx
        exact hl
      · rw [if_neg hl] at hx
        exact ih seg x hx

/-- The overlap prefix added to a chunk is an at-most-`ov`-character suffix
of the previous chunk, and the result respects the bound whenever the
pre-overlap chunk did. -/
theorem tailOv_decomp (ov bound : Nat) (prev cur : List Char) :
    ∃ pre u, tailOv ov bound prev cur = pre ++ cur ∧ pre.length ≤ ov ∧
      prev = u ++ pre ∧ (cur.length ≤ bound → (tailOv ov bound prev cur).length ≤ bound) := by
  refine ⟨(prev.drop (prev.length - ov)).drop
      ((prev.drop (prev.length - ov)).length - (bound - cur.length)),
    prev.take (prev.length - ov + ((prev.drop (prev.length - ov)).length - (bound - cur.length))),
    rfl, ?_, ?_, ?_⟩
  · simp only [List.length_drop]
    omega
  · rw [List.drop_drop]
    exact (List.take_append_drop _ _).symm
  · intro hcb
    rw [tailOv]
    simp only [List.length_append, List.length_drop]
    omega

/-- The overlap pass preserves the size bound chunkwise. -/
theorem applyOverlapAux_bound (ov bound : Nat) :
    ∀ (rest : List (List Char)) (prev : List Char),
      (∀ c ∈ rest, c.length ≤ bound) →
      ∀ c ∈ applyOverlapAux ov bound prev rest, c.length ≤ bound := by
  intro rest
  induction rest with
  | nil =>
    intro prev _ c hc
    simp [applyOverlapAux] at hc
  | cons x rs ih =>
    intro prev hr c hc
    simp only [applyOverlapAux] at hc
    rcases List.mem_cons.mp hc with rfl | hc'
    · obtain ⟨pre, u, _, _, _, hlen⟩ := tailOv_decomp ov bound prev x
      exact hlen (hr x (List.mem_cons_self _ _))
    · exact ih x (fun c hcm => hr c (List.mem_cons_of_mem _ hcm)) c hc'

/-- The overlap window manager preserves the size bound. -/
theorem applyOverlap_bound (bound ov : Nat) (chunks : List (List Char))
    (h : ∀ c ∈ chunks, c.length ≤ bound) :
    ∀ c ∈ applyOverlap bound ov chunks, c.length ≤ bound := by
  cases chunks with
  | nil =>
    intro c hc
    simp [applyOverlap] at hc
  | cons c0 rest =>
    intro c hc
    simp only [applyOverlap] at hc
    rcases List.mem_cons.mp hc with rfl | hc'
    · exact h c (List.mem_cons_self _ _)
    · exact applyOverlapAux_bound ov bound rest c0
        (fun x hx => h x (List.mem_cons_of_mem _ hx)) c hc'

/-- C1: for every input document list and every chunk produced by
`chunk_documents` with the configured splitter, the character length of the
chunk's content is at most the configured `chunk_size` (for any positive
`chunk_size`; single characters always fit, so the oversized-atom edge case
never arises above the character level). -/
theorem chunk_documents_size_bound (documents : List Document)
    (chunk_size chunk_overlap : Nat) (h : 1 ≤ chunk_size) :
    ∀ ch ∈ chunk_documents chunk_size chunk_overlap documents,
      ch.page_content.length ≤ chunk_size := by
  intro ch hch
  rcases List.mem_flatMap.mp hch with ⟨d, _, hm⟩
  rcases List.mem_map.mp hm with ⟨c, hc, rfl⟩
  simp only [splitPage] at hc
  exact applyOverlap_bound _ _ _
    (segmentText_bound chunk_size h bankingSeparators d.page_content) c hc

/-- Witness for C1 at a concrete document and bound. -/
theorem chunk_documents_size_bound_witness :
    1 ≤ 5 ∧
      ∀ ch ∈ chunk_documents 5 2
          [{ page_content := "hello world. how are you".toList, metadata := [] }],
        ch.page_content.length ≤ 5 :=
  ⟨by decide, chunk_documents_size_bound _ 5 2 (by decide)⟩

/-- The chunk at position `i` of the overlap pass output is `tailOv` of the
pre-overlap chunks at positions `i` and `i+1` of the input (counting `prev`
as position zero). -/
theorem applyOverlapAux_adj (ov bound : Nat) :
    ∀ (rest : List (List Char)) (prev : List Char) (i : Nat) (ci ci1 : List Char),
      (prev :: rest)[i]? = some ci → rest[i]? = some ci1 →
      (applyOverlapAux ov bound prev rest)[i]? = some (tailOv ov bound ci ci1) := by
  intro rest
  induction rest with
  | nil =>
    intro prev i ci ci1 _ h2
    simp at h2
  | cons x rs ih =>
    intro prev i ci ci1 h1 h2
    cases i with
    | zero =>
      simp only [List.getElem?_cons_zero, Option.some.injEq] at h1 h2
      subst h1
      subst h2
      simp [applyOverlapAux]
    | succ j =>
      simp only [List.getElem?_cons_succ] at h1 h2
      simp only [applyOverlapAux, List.getElem?_cons_succ]
      exact ih x j ci ci1 h1 h2

/-- C2: in the chunk sequence a document's text is segmented into, the first
chunk receives no leading overlap, and every later chunk equals an
at-most-`chunk_overlap`-character suffix of its predecessor's pre-overlap
content prepended to its own pre-overlap content. -/
theorem overlap_window_bound (chunk_size chunk_overlap : Nat) (text : List Char) :
    (applyOverlap chunk_size chunk_overlap (segmentText chunk_size bankingSeparators text))[0]? =
      (segmentText chunk_size bankingSeparators text)[0]? ∧
    ∀ (i : Nat) (ci ci1 : List Char),
      (segmentText chunk_size bankingSeparators text)[i]? = some ci →
      (segmentText chunk_size bankingSeparators text)[i + 1]? = some ci1 →
      ∃ pre u,
        (applyOverlap chunk_size chunk_overlap
            (segmentText chunk_size bankingSeparators text))[i + 1]? = some (pre ++ ci1) ∧
        pre.length ≤ chunk_overlap ∧ ci = u ++ pre := by
  constructor
  · cases h : segmentText chunk_size bankingSeparators text with
    | nil => simp [applyOverlap]
    | cons c0 rest => simp [applyOverlap]
  · intro i ci ci1 h1 h2
    cases h : segmentText chunk_size bankingSeparators text with
    | nil =>
      rw [h] at h1
      simp at h1
    | cons c0 rest =>
      rw [h] at h1 h2
      simp only [List.getElem?_cons_succ] at h2
      have hadj := applyOverlapAux_adj chunk_overlap chunk_size rest c0 i ci ci1 h1 h2
      obtain ⟨pre, u, he, hov, hsu, _⟩ := tailOv_decomp chunk_overlap chunk_size ci ci1
      refine ⟨pre, u, ?_, hov, hsu⟩
      simp only [applyOverlap, List.getElem?_cons_succ]
      rw [hadj, he]

/-- Witness for C2 at a concrete text, bound and overlap. -/
theorem overlap_window_bound_witness :
    (segmentText 3 bankingSeparators "ab cd".toList)[0]? = some "ab ".toList ∧
    (segmentText 3 bankingSeparators "ab cd".toList)[0 + 1]? = some "cd".toList ∧
    ∃ pre u,
      (applyOverlap 3 1 (segmentText 3 bankingSeparators "ab cd".toList))[0 + 1]? =
        some (pre ++ "cd".toList) ∧
      pre.length ≤ 1 ∧ "ab ".toList = u ++ pre :=
  ⟨by decide, by decide,
    (overlap_window_bound 3 1 "ab cd".toList).2 0 "ab ".toList "cd".toList
      (by decide) (by decide)⟩

/-- Reading a key just written to a dict yields the written value. -/
theorem getK_setK_self {α : Type} (k : String) (v : α) :
    ∀ m : List (String × α), getK k (setK k v m) = some v := by
  intro m
  induction m with
  | nil => simp [setK, getK]
  | cons p rest ih =>
    obtain ⟨k', v'⟩ := p
    by_cases h : k' = k
    · subst h
      simp [setK, getK]
    · simp [setK, getK, h, ih]

/-- Writing one key leaves every other key's binding unchanged. -/
theorem getK_setK_ne {α : Type} (k k' : String) (v : α) (h : k' ≠ k) :
    ∀ m : List (String × α), getK k (setK k' v m) = getK k m := by
  intro m
  induction m with
  | nil => simp [setK, getK, h]
  | cons p rest ih =>
    obtain ⟨k'', v''⟩ := p
    by_cases h2 : k'' = k'
    · subst h2
      simp [setK, getK, h]
    · simp only [setK, getK, if_neg h2]
      by_cases h3 : k'' = k
      · simp [h3]
      · simp [h3, ih]

/-- Rewriting a key with the value it already holds is the identity. -/
theorem setK_mem_same {α : Type} (k : String) (v : α) :
    ∀ m : List (String × α), getK k m = some v → setK k v m = m := by
  intro m
  induction m with
  | nil =>
    intro h
    simp [getK] at h
  | cons p rest ih =>
    obtain ⟨k', v'⟩ := p
    intro h
    by_cases h2 : k' = k
    · subst h2
      have hv : v' = v := by simpa [getK] using h
      simp [setK, hv]
    · simp only [getK, if_neg h2] at h
      simp [setK, h2, ih h]

/-- A batch update does not touch keys outside the update list. -/
theorem getK_updateKVs_preserved {α : Type} (k : String) :
    ∀ (kvs m : List (String × α)),
      k ∉ kvs.map Prod.fst → getK k (updateKVs m kvs) = getK k m := by
  intro kvs
  induction kvs with
  | nil =>
    intro m _
    rfl
  | cons p rest ih =>
    obtain ⟨k', v'⟩ := p
    intro m hk
    simp only [List.map_cons, List.mem_cons] at hk
    push_neg at hk
    simp only [updateKVs]
    rw [ih (setK k' v' m) hk.2, getK_setK_ne k k' v' (Ne.symm hk.1)]

/-- After a batch update with pairwise distinct keys, every updated key
holds its new value. -/
theorem getK_updateKVs_mem {α : Type} :
    ∀ (kvs m : List (String × α)) (k : String) (v : α),
      (kvs.map Prod.fst).Nodup → (k, v) ∈ kvs → getK k (updateKVs m kvs) = some v := by
  intro kvs
  induction kvs with
  | nil =>
    intro m k v _ h
    simp at h
  | cons p rest ih =>
    obtain ⟨k', v'⟩ := p
    intro m k v hnd hm
    simp only [List.map_cons, List.nodup_cons] at hnd
    rcases List.mem_cons.mp hm with heq | hm'
    · injection heq with hk hv
      subst hk
      subst hv
      simp only [updateKVs]
      rw [getK_updateKVs_preserved _ rest _ hnd.1, getK_setK_self]
    · simp only [updateKVs]
      exact ih (setK k' v' m) k v hnd.2 hm'

/-- A batch update whose bindings are already all present is the identity. -/
theorem updateKVs_stable {α : Type} :
    ∀ (kvs m : List (String × α)),
      (∀ p ∈ kvs, getK p.1 m = some p.2) → updateKVs m kvs = m := by
  intro kvs
  induction kvs with
  | nil =>
    intro m _
    rfl
  | cons p rest ih =>
    obtain ⟨k, v⟩ := p
    intro m h
    simp only [updateKVs]
    rw [setK_mem_same k v m (h (k, v) (List.mem_cons_self _ _))]
    exact ih m (fun q hq => h q (List.mem_cons_of_mem _ hq))

/-- Batch dict updates with pairwise distinct keys are idempotent. -/
theorem updateKVs_idem {α : Type} (kvs m : List (String × α))
    (hnd : (kvs.map Prod.fst).Nodup) :
    updateKVs (updateKVs m kvs) kvs = updateKVs m kvs :=
  updateKVs_stable kvs _ (fun p hp => getK_updateKVs_mem kvs m p.1 p.2 hnd (by simpa using hp))

/-- Enrichment preserves the number of chunks. -/
theorem enrichAux_length (source_file doc_type : String) (n : Nat) :
    ∀ (i : Nat) (l : List Document), (enrichAux source_file doc_type n i l).length = l.length := by
  intro i l
  induction l generalizing i with
  | nil => rfl
  | cons c cs ih => simp [enrichAux, ih]

/-- The enriched chunk at position `j` is the original chunk with its
metadata updated at running index `i + j`. -/
theorem enrichAux_getElem (source_file doc_type : String) (n : Nat) :
    ∀ (l : List Document) (i j : Nat) (c : Document), l[j]? = some c →
      (enrichAux source_file doc_type n i l)[j]? =
        some { c with
          metadata := updateKVs c.metadata (chunkKVs source_file doc_type n (i + j) c) } := by
  intro l
  induction l with
  | nil =>
    intro i j c h
    simp at h
  | cons x xs ih =>
    intro i j c h
    cases j with
    | zero =>
      simp only [List.getElem?_cons_zero, Option.some.injEq] at h
      subst h
      simp [enrichAux]
    | succ jj =>
      simp only [List.getElem?_cons_succ] at h
      simp only [enrichAux, List.getElem?_cons_succ]
      rw [ih (i + 1) jj c h]
      have harith : i + 1 + jj = i + (jj + 1) := by omega
      rw [harith]

/-- C4: for a document producing N chunks, enrichment writes `chunk_index`
equal to each chunk's 0-based position, `total_chunks` equal to N on every
chunk, and `chunk_size` equal to the character length of that chunk's
content. -/
theorem enrich_metadata_fields (chunks : List Document) (source_file : String) (i : Nat)
    (hi : i < chunks.length) :
    (enrich_metadata chunks source_file).length = chunks.length ∧
    ∃ c0 c, chunks[i]? = some c0 ∧ (enrich_metadata chunks source_file)[i]? = some c ∧
      getK "chunk_index" c.metadata = some (MVal.nat i) ∧
      getK "total_chunks" c.metadata = some (MVal.nat chunks.length) ∧
      getK "chunk_size" c.metadata = some (MVal.nat c0.page_content.length) := by
  obtain ⟨c0, h0⟩ : ∃ c0, chunks[i]? = some c0 := by
    rw [List.getElem?_eq_getElem hi]
    exact ⟨_, rfl⟩
  have hget := enrichAux_getElem source_file
    (infer_document_type (String.mk (baseName source_file.toList))) chunks.length
    chunks 0 i c0 h0
  rw [Nat.zero_add] at hget
  refine ⟨enrichAux_length _ _ _ 0 chunks, c0, _, h0, hget, ?_, ?_, ?_⟩
  · simp only [chunkKVs, updateKVs]
    rw [getK_setK_ne _ _ _ (by decide), getK_setK_ne _ _ _ (by decide), getK_setK_self]
  · simp only [chunkKVs, updateKVs]
    rw [getK_setK_ne _ _ _ (by decide), getK_setK_self]
  · simp only [chunkKVs, updateKVs]
    rw [getK_setK_self]

/-- Witness for C4 at a concrete two-chunk document, position 1. -/
theorem enrich_metadata_fields_witness :
    1 < ([{ page_content := "abc".toList, metadata := [] },
          { page_content := "de".toList, metadata := [] }] : List Document).length ∧
    ((enrich_metadata
        [{ page_content := "abc".toList, metadata := [] },
         { page_content := "de".toList, metadata := [] }] "docs/fee_schedule.docx").length =
      ([{ page_content := "abc".toList, metadata := [] },
        { page_content := "de".toList, metadata := [] }] : List Document).length ∧
    ∃ c0 c,
      ([{ page_content := "abc".toList, metadata := [] },
        { page_content := "de".toList, metadata := [] }] : List Document)[1]? = some c0 ∧
      (enrich_metadata
        [{ page_content := "abc".toList, metadata := [] },
         { page_content := "de".toList, metadata := [] }] "docs/fee_schedule.docx")[1]? = some c ∧
      getK "chunk_index" c.metadata = some (MVal.nat 1) ∧
      getK "total_chunks" c.metadata =
        some (MVal.nat ([{ page_content := "abc".toList, metadata := [] },
          { page_content := "de".toList, metadata := [] }] : List Document).length) ∧
      getK "chunk_size" c.metadata = some (MVal.nat c0.page_content.length)) :=
  ⟨by decide,
    enrich_metadata_fields
      [{ page_content := "abc".toList, metadata := [] },
       { page_content := "de".toList, metadata := [] }] "docs/fee_schedule.docx" 1 (by decide)⟩

/-- Re-running the enrichment loop with identical parameters changes
nothing: the keys it writes are pairwise distinct and the written values
depend only on data enrichment preserves. -/
theorem enrichAux_idem (source_file doc_type : String) (n : Nat) :
    ∀ (l : List Document) (i : Nat),
      enrichAux source_file doc_type n i (enrichAux source_file doc_type n i l) =
        enrichAux source_file doc_type n i l := by
  intro l
  induction l with
  | nil =>
    intro i
    rfl
  | cons c cs ih =>
    intro i
    simp only [enrichAux]
    refine congrArg₂ List.cons ?_ (ih (i + 1))
    show ({ c with
      metadata := updateKVs (updateKVs c.metadata (chunkKVs source_file doc_type n i c))
        (chunkKVs source_file doc_type n i c) } : Document) = _
    have hnd : ((chunkKVs source_file doc_type n i c).map Prod.fst).Nodup := by
      simp only [chunkKVs, List.map_cons, List.map_nil]
      decide
    rw [updateKVs_idem _ _ hnd]

/-- C9: applying `enrich_metadata` twice with the same source identifier
yields the same chunks (hence the same metadata) as applying it once. -/
theorem enrich_metadata_idem (chunks : List Document) (source_file : String) :
    enrich_metadata (enrich_metadata chunks source_file) source_file =
      enrich_metadata chunks source_file := by
  simp only [enrich_metadata]
  rw [enrichAux_length]
  exact enrichAux_idem _ _ _ chunks 0

/-- C5 counterexample: `"loan_products.docx"` contains the substring
`"product"`, which belongs to the highest-priority class, so the inferred
category is `"account_info"`, not `"loans"` as claimed. -/
theorem infer_document_type_loan_products_cex :
    infer_document_type "loan_products.docx" = "account_info" ∧
      infer_document_type "loan_products.docx" ≠ "loans" := by
  constructor
  · decide
  · decide

/-- C5 (amended): the inferred `doc_type` is a case-insensitive substring
match in fixed first-match-wins priority order — account/product, then
fee/charge, then loan/mortgage, then security/fraud, then service/support,
else general — and the concrete cases follow that order, `"loan_products.docx"`
included, which matches `"product"` first and maps to `"account_info"`. -/
theorem infer_document_type_priority :
    (∀ s : String,
      ((hasKw s "account" || hasKw s "product") = true →
        infer_document_type s = "account_info") ∧
      ((hasKw s "account" || hasKw s "product") = false →
        (hasKw s "fee" || hasKw s "charge") = true →
        infer_document_type s = "fees") ∧
      ((hasKw s "account" || hasKw s "product") = false →
        (hasKw s "fee" || hasKw s "charge") = false →
        (hasKw s "loan" || hasKw s "mortgage") = true →
        infer_document_type s = "loans") ∧
      ((hasKw s "account" || hasKw s "product") = false →
        (hasKw s "fee" || hasKw s "charge") = false →
        (hasKw s "loan" || hasKw s "mortgage") = false →
        (hasKw s "security" || hasKw s "fraud") = true →
        infer_document_type s = "security") ∧
      ((hasKw s "account" || hasKw s "product") = false →
        (hasKw s "fee" || hasKw s "charge") = false →
        (hasKw s "loan" || hasKw s "mortgage") = false →
        (hasKw s "security" || hasKw s "fraud") = false →
        (hasKw s "service" || hasKw s "support") = true →
        infer_document_type s = "customer_service") ∧
      ((hasKw s "account" || hasKw s "product") = false →
        (hasKw s "fee" || hasKw s "charge") = false →
        (hasKw s "loan" || hasKw s "mortgage") = false →
        (hasKw s "security" || hasKw s "fraud") = false →
        (hasKw s "service" || hasKw s "support") = false →
        infer_document_type s = "general")) ∧
    infer_document_type "account_types.docx" = "account_info" ∧
    infer_document_type "fee_schedule.docx" = "fees" ∧
    infer_document_type "loan_products.docx" = "account_info" ∧
    infer_document_type "mortgage_rates.docx" = "loans" ∧
    infer_document_type "security_policy.docx" = "security" ∧
    infer_document_type "customer_service.docx" = "customer_service" ∧
    infer_document_type "random_notes.docx" = "general" := by
  refine ⟨fun s => ⟨?_, ?_, ?_, ?_, ?_, ?_⟩,
    by decide, by decide, by decide, by decide, by decide, by decide, by decide⟩
  · intro h1
    simp [infer_document_type, h1]
  · intro h1 h2
    simp [infer_document_type, h1, h2]
  · intro h1 h2 h3
    simp [infer_document_type, h1, h2, h3]
  · intro h1 h2 h3 h4
    simp [infer_document_type, h1, h2, h3, h4]
  · intro h1 h2 h3 h4 h5
    simp [infer_document_type, h1, h2, h3, h4, h5]
  · intro h1 h2 h3 h4 h5
    simp [infer_document_type, h1, h2, h3, h4, h5]

/-- Witness for the amended C5 at a concrete filename reaching the third
priority class. -/
theorem infer_document_type_priority_witness :
    (hasKw "mortgage.docx" "account" || hasKw "mortgage.docx" "product") = false ∧
    (hasKw "mortgage.docx" "fee" || hasKw "mortgage.docx" "charge") = false ∧
    (hasKw "mortgage.docx" "loan" || hasKw "mortgage.docx" "mortgage") = true ∧
    infer_document_type "mortgage.docx" = "loans" :=
  ⟨by decide, by decide, by decide,
    (infer_document_type_priority.1 "mortgage.docx").2.2.1 (by decide) (by decide) (by decide)⟩

/-- C6: the configuration is validated at construction time — a
non-positive `chunk_size` or a `chunk_overlap` at least as large as
`chunk_size` is rejected with an error, and an accepted configuration is
stored exactly, never clamped. -/
theorem mkDocumentProcessor_validates (chunk_size chunk_overlap : Int) :
    ((chunk_size ≤ 0 ∨ chunk_overlap ≥ chunk_size) →
      ∃ e, mkDocumentProcessor chunk_size chunk_overlap = Except.error e) ∧
    (0 < chunk_size → chunk_overlap < chunk_size →
      mkDocumentProcessor chunk_size chunk_overlap =
        Except.ok { chunk_size := chunk_size, chunk_overlap := chunk_overlap }) := by
  constructor
  · intro h
    rcases h with h | h
    · exact ⟨_, by rw [mkDocumentProcessor, if_pos h]⟩
    · by_cases h0 : chunk_size ≤ 0
      · exact ⟨_, by rw [mkDocumentProcessor, if_pos h0]⟩
      · exact ⟨_, by rw [mkDocumentProcessor, if_neg h0, if_pos (by omega)]⟩
  · intro h1 h2
    rw [mkDocumentProcessor, if_neg (by omega), if_neg (by omega)]

/-- Witness for C6: a zero `chunk_size` is rejected, the default
configuration (1000, 200) is accepted unchanged. -/
theorem mkDocumentProcessor_validates_witness :
    (∃ e, mkDocumentProcessor 0 200 = Except.error e) ∧
      mkDocumentProcessor 1000 200 =
        Except.ok { chunk_size := 1000, chunk_overlap := 200 } :=
  ⟨(mkDocumentProcessor_validates 0 200).1 (Or.inl (by decide)),
    (mkDocumentProcessor_validates 1000 200).2 (by decide) (by decide)⟩

/-- C7: a missing directory makes `process_directory` fail immediately with
an error and no partial result; an existing directory always yields a pair
of the chunk sequence and the statistics. -/
theorem process_directory_total (chunk_size chunk_overlap : Nat) :
    (∃ e, process_directory chunk_size chunk_overlap none = Except.error e) ∧
    ∀ files : List FileEnt, ∃ chunks stats,
      process_directory chunk_size chunk_overlap (some files) = Except.ok (chunks, stats) :=
  ⟨⟨_, rfl⟩, fun _ => ⟨_, _, rfl⟩⟩

/-- A file whose load yields no documents is skipped by the loop body
(`continue`) and leaves the whole state untouched. -/
theorem processFile_skip (chunk_size chunk_overlap : Nat) (st : BatchState) (f : FileEnt)
    (h : load_document f = []) :
    processFile chunk_size chunk_overlap st f = st := by
  simp [processFile, h]

/-- C3: a document that fails to load does not abort the batch and
contributes nothing — processing a file list containing it gives exactly
the state obtained by processing the list without it, so every other
document is processed normally and the failed one adds nothing to
`all_chunks`, `total_documents`, `total_chunks` or `document_types`. -/
theorem processFiles_isolation (chunk_size chunk_overlap : Nat) (st : BatchState)
    (xs ys : List FileEnt) (bad : FileEnt) (h : load_document bad = []) :
    processFiles chunk_size chunk_overlap st (xs ++ bad :: ys) =
      processFiles chunk_size chunk_overlap st (xs ++ ys) := by
  simp only [processFiles, List.foldl_append, List.foldl_cons]
  rw [processFile_skip _ _ _ _ h]

/-- Witness for C3: three documents, the second failing to load. -/
theorem processFiles_isolation_witness :
    load_document { path := "b.txt", loadResult := none } = [] ∧
    processFiles 5 2
        { all_chunks := [],
          stats := { total_documents := 0, total_chunks := 0, avg_chunk_size := 0,
                     document_types := [] } }
        [{ path := "a.txt",
           loadResult := some [{ page_content := "hello".toList, metadata := [] }] },
         { path := "b.txt", loadResult := none },
         { path := "c.txt",
           loadResult := some [{ page_content := "world".toList, metadata := [] }] }] =
      processFiles 5 2
        { all_chunks := [],
          stats := { total_documents := 0, total_chunks := 0, avg_chunk_size := 0,
                     document_types := [] } }
        [{ path := "a.txt",
           loadResult := some [{ page_content := "hello".toList, metadata := [] }] },
         { path := "c.txt",
           loadResult := some [{ page_content := "world".toList, metadata := [] }] }] :=
  ⟨by decide,
    processFiles_isolation 5 2
      { all_chunks := [],
        stats := { total_documents := 0, total_chunks := 0, avg_chunk_size := 0,
                   document_types := [] } }
      [{ path := "a.txt",
         loadResult := some [{ page_content := "hello".toList, metadata := [] }] }]
      [{ path := "c.txt",
         loadResult := some [{ page_content := "world".toList, metadata := [] }] }]
      { path := "b.txt", loadResult := none } (by decide)⟩

/-- C10: a file that loads to a non-empty document list but chunks to an
empty chunk list still increments `total_documents` (and adds `0` to
`total_chunks`) before the `chunks[0]` access raises, while `all_chunks`
and `document_types` are left unchanged — the statistics update is not
atomic with per-document success. -/
theorem processFile_empty_chunks (chunk_size chunk_overlap : Nat) (st : BatchState) (f : FileEnt)
    (h1 : (load_document f).isEmpty = false)
    (h2 : chunk_documents chunk_size chunk_overlap (load_document f) = []) :
    processFile chunk_size chunk_overlap st f =
      { all_chunks := st.all_chunks,
        stats := { st.stats with total_documents := st.stats.total_documents + 1 } } := by
  simp only [processFile, h1, Bool.false_eq_true, if_false, h2]
  simp [enrich_metadata, enrichAux]

/-- Witness for C10: a supported file with one page of empty text. -/
theorem processFile_empty_chunks_witness :
    (load_document
        { path := "empty.txt",
          loadResult := some [{ page_content := [], metadata := [] }] }).isEmpty = false ∧
    chunk_documents 5 2
        (load_document
          { path := "empty.txt",
            loadResult := some [{ page_content := [], metadata := [] }] }) = [] ∧
    processFile 5 2
        { all_chunks := [],
          stats := { total_documents := 0, total_chunks := 0, avg_chunk_size := 0,
                     document_types := [] } }
        { path := "empty.txt", loadResult := some [{ page_content := [], metadata := [] }] } =
      { all_chunks := [],
        stats := { total_documents := 1, total_chunks := 0, avg_chunk_size := 0,
                   document_types := [] } } :=
  ⟨by decide, by decide,
    processFile_empty_chunks 5 2
      { all_chunks := [],
        stats := { total_documents := 0, total_chunks := 0, avg_chunk_size := 0,
                   document_types := [] } }
      { path := "empty.txt", loadResult := some [{ page_content := [], metadata := [] }] }
      (by decide) (by decide)⟩

/-- C8 counterexample: a file named with an upper-case supported extension
is not matched by any of the lower-case glob patterns, so the directory
scan excludes it from the batch. -/
theorem scanFiles_upper_cex :
    scanFiles
      [{ path := "A.TXT",
         loadResult := some [{ page_content := "hi".toList, metadata := [] }] }] = [] := by
  decide

/-- C8 (amended): the directory scan includes exactly the files whose name
ends with one of the literal lower-case extensions `.docx`, `.pdf`, `.txt`
(glob matching is case sensitive on a POSIX filesystem, so other-cased
extensions are excluded, silently); and `load_document`, which lower-cases
the suffix, returns the empty list for an unsupported extension without
raising. -/
theorem scanFiles_membership :
    (∀ (files : List FileEnt) (f : FileEnt),
      f ∈ scanFiles files ↔
        f ∈ files ∧
          (endsWithL f.path.toList ".docx".toList = true ∨
           endsWithL f.path.toList ".pdf".toList = true ∨
           endsWithL f.path.toList ".txt".toList = true)) ∧
    ∀ f : FileEnt, extLower f.path ∉ supported_extensions → load_document f = [] := by
  constructor
  · intro files f
    simp only [scanFiles, supported_extensions, List.mem_flatMap, List.mem_cons,
      List.not_mem_nil, or_false, List.mem_filter]
    constructor
    · rintro ⟨ext, hor, hf, he⟩
      rcases hor with rfl | rfl | rfl
      · exact ⟨hf, Or.inl he⟩
      · exact ⟨hf, Or.inr (Or.inl he)⟩
      · exact ⟨hf, Or.inr (Or.inr he)⟩
    · rintro ⟨hf, h | h | h⟩
      · exact ⟨".docx", Or.inl rfl, hf, h⟩
      · exact ⟨".pdf", Or.inr (Or.inl rfl), hf, h⟩
      · exact ⟨".txt", Or.inr (Or.inr rfl), hf, h⟩
  · intro f h
    have h1 : ¬(extLower f.path = ".docx" ∨ extLower f.path = ".pdf" ∨
        extLower f.path = ".txt") := by
      simpa [supported_extensions] using h
    rw [load_document, if_neg h1]

/-- Witness for the amended C8: an unsupported extension is soft-skipped by
`load_document`. -/
theorem scanFiles_membership_witness :
    extLower "notes.md" ∉ supported_extensions ∧
      load_document
        { path := "notes.md",
          loadResult := some [{ page_content := "x".toList, metadata := [] }] } = [] :=
  ⟨by decide,
    scanFiles_membership.2
      { path := "notes.md",
        loadResult := some [{ page_content := "x".toList, metadata := [] }] } (by decide)⟩
